import Mathlib

/-!
Verification of the wm2 worktree manager (TypeScript sources) against its
natural-language specification.

The two components specified are shallowly embedded here:
* the porcelain worktree-list parser (`src/core/git/manager.ts`,
  `parseWorktreeList`) together with the `Worktree` record model
  (`src/models/worktree.ts`), and
* the hook orchestrator (`HookManager` in the unnamed hook-manager source:
  `executeHook`, `executeHookHash`, `executeCommand`,
  `defaultWorkingDirectory`, the `pwd` variable substitution, `loadHooks`,
  `hasHook`, `listHooks`),
plus the input validation of the git `Manager` operations
(`validateInput`, `add`, `addWithNewBranch`, `addTrackingBranch`, `remove`).

Subprocess execution is modelled by an oracle (command and working directory
to success boolean); every launched subprocess is recorded in a trace so that
"no subprocess is invoked" is a statement about the trace.  JavaScript strings
are modelled by Lean `String` (code-unit slicing coincides for the ASCII
markers used by the code), JavaScript objects by association lists with
first-match lookup (YAML documents cannot produce duplicate keys), and
JavaScript truthiness is spelled out case by case.
-/

namespace Wm2

/-- JS `String.prototype.startsWith`: character-prefix test. -/
def strStartsWith (s pre : String) : Bool := pre.data.isPrefixOf s.data

/-- JS `String.prototype.slice(n)` with a nonnegative index: drop the first
`n` characters. -/
def jsSlice (s : String) (n : Nat) : String := String.mk (s.data.drop n)

/-- Characters removed by JS `String.prototype.trim` (ASCII whitespace and
line terminators; exotic Unicode space separators are not modelled). -/
def isJsWs (c : Char) : Bool :=
  c = ' ' || c = '\t' || c = '\n' || c = '\r' || c = '\x0b' || c = '\x0c'

/-- JS `String.prototype.trim`. -/
def jsTrim (s : String) : String :=
  String.mk (((s.data.dropWhile isJsWs).reverse.dropWhile isJsWs).reverse)

/-- Worker for `jsSplitNl`: cut the character stream at each separator.  The
accumulator holds the characters of the current piece in reverse. -/
def splitAux (sep : Char) : List Char → List Char → List String
  | [], acc => [String.mk acc.reverse]
  | c :: rest, acc =>
    if c = sep then String.mk acc.reverse :: splitAux sep rest []
    else splitAux sep rest (c :: acc)

/-- JS `String.prototype.split('\n')`. -/
def jsSplitNl (s : String) : List String := splitAux '\n' s.data []

/-- JS `String.prototype.includes`: substring membership, over char lists. -/
def listContainsInfix (pat : List Char) : List Char → Bool
  | [] => pat.isEmpty
  | c :: rest => pat.isPrefixOf (c :: rest) || listContainsInfix pat rest

/-- JS `String.prototype.includes`. -/
def containsSubstr (s pat : String) : Bool := listContainsInfix pat.data s.data

/-- One processed segment of node `path.resolve`: skip empty and `.`
segments, pop on `..`. The accumulator holds segments in reverse. -/
def resolveSegs : List String → List String → List String
  | [], stack => stack.reverse
  | s :: rest, stack =>
    if s = "" || s = "." then resolveSegs rest stack
    else if s = ".." then resolveSegs rest stack.tail
    else resolveSegs rest (s :: stack)

/-- Join path segments with slashes. -/
def joinSlash : List String → String
  | [] => ""
  | [s] => s
  | s :: rest => s ++ "/" ++ joinSlash rest

/-- Node `path.resolve(root, p)` for an absolute `root` and a non-absolute
`p`: join with a slash and normalize segments. -/
def nodeResolve (root p : String) : String :=
  "/" ++ joinSlash (resolveSegs (splitAux '/' (root ++ "/" ++ p).data []) [])

/-- The pattern `path.startsWith('/') ? path : resolve(repositoryPath, path)`
used throughout the hook manager and git manager sources. -/
def jsResolve (root p : String) : String :=
  if strStartsWith p "/" then p else nodeResolve root p

/-- The `Worktree` model class (`src/models/worktree.ts`).  `path` is an
`Option` because the parser can construct a record whose `path` property was
never assigned (the TypeScript cast `wt.path as string` then passes
`undefined`); `branch` is `none` for the JS `null`. -/
structure Worktree where
  path : Option String
  branch : Option String
  head : String
  bare : Bool
  detached : Bool
deriving DecidableEq, Repr

/-- `Worktree.isMain` (`src/models/worktree.ts`): main iff no branch, not
detached, not bare. -/
def Worktree.isMain (w : Worktree) : Bool :=
  w.branch.isNone && !w.detached && !w.bare

/-- The open accumulator `currentWorktree` of `parseWorktreeList`: a partial
record of the attributes assigned so far.  A `none` / `false` field means the
corresponding JS object key is absent. -/
structure WAcc where
  path : Option String
  head : Option String
  branch : Option String
  bare : Bool
  detached : Bool
deriving DecidableEq, Repr

/-- The fresh accumulator `{}`. -/
def WAcc.empty : WAcc := ⟨none, none, none, false, false⟩

/-- `Object.keys(currentWorktree).length > 0` is false: no key was assigned.
`bare` and `detached` keys are only ever set to `true`, so presence of those
keys coincides with the boolean value. -/
def WAcc.isEmpty (a : WAcc) : Bool :=
  a.path.isNone && a.head.isNone && a.branch.isNone && !a.bare && !a.detached

/-- `createWorktree` inside `parseWorktreeList`: `new Worktree(wt.path,
wt.branch || null, wt.head || '', { bare: wt.bare || false, detached:
wt.detached || false })`.  An empty-string branch is falsy in JS, so
`wt.branch || null` turns it into `null`. -/
def finalize (a : WAcc) : Worktree :=
  { path := a.path
  , branch := match a.branch with
      | some b => if b = "" then none else some b
      | none => none
  , head := match a.head with
      | some h => h
      | none => ""
  , bare := a.bare
  , detached := a.detached }

/-- Strip a literal `refs/heads/` prefix from a branch value if present. -/
def stripRefs (b : String) : String :=
  if strStartsWith b "refs/heads/" then jsSlice b 11 else b

/-- Push the open accumulator onto the result list when it has at least one
assigned key. -/
def flushAcc (ws : List Worktree) (a : WAcc) : List Worktree :=
  if a.isEmpty then ws else ws ++ [finalize a]

/-- The body of the `for (const line of lines)` loop of `parseWorktreeList`:
one trimmed non-empty line updates the `(worktrees, currentWorktree)` state. -/
def processLine (st : List Worktree × WAcc) (l : String) : List Worktree × WAcc :=
  if strStartsWith l "worktree " then
    (flushAcc st.1 st.2, { WAcc.empty with path := some (jsSlice l 9) })
  else if strStartsWith l "HEAD " then
    (st.1, { st.2 with head := some (jsSlice l 5) })
  else if strStartsWith l "branch " then
    (st.1, { st.2 with branch := some (stripRefs (jsSlice l 7)) })
  else if l = "detached" then
    (st.1, { st.2 with detached := true })
  else if l = "bare" then
    (st.1, { st.2 with bare := true })
  else st

/-- Final flush after the scan. -/
def parseFinish (st : List Worktree × WAcc) : List Worktree := flushAcc st.1 st.2

/-- `output.split('\n').filter(line => line.trim())`, each line then trimmed
in the loop body: the trimmed non-empty lines, in order. -/
def parsedLines (output : String) : List String :=
  ((jsSplitNl output).map jsTrim).filter (fun l => l ≠ "")

/-- `Manager.parseWorktreeList` (`src/core/git/manager.ts`). -/
def parseWorktreeList (output : String) : List Worktree :=
  parseFinish ((parsedLines output).foldl processLine ([], WAcc.empty))

/-- The paths announced by the `worktree ` lines of a line list, in order. -/
def wtPaths (ls : List String) : List (Option String) :=
  (ls.filter (fun l => strStartsWith l "worktree ")).map (fun l => some (jsSlice l 9))

/-- A line recognized by one of the four attribute arms of the parser loop
(`HEAD `, `branch `, `detached`, `bare`). -/
def isAttrLine (l : String) : Bool :=
  strStartsWith l "HEAD " || strStartsWith l "branch " || l = "detached" || l = "bare"

/-- The effect of one non-`worktree ` line on the open accumulator (the four
attribute arms of the loop plus the ignore-arm). -/
def blockStep (a : WAcc) (l : String) : WAcc :=
  if strStartsWith l "HEAD " then { a with head := some (jsSlice l 5) }
  else if strStartsWith l "branch " then { a with branch := some (stripRefs (jsSlice l 7)) }
  else if l = "detached" then { a with detached := true }
  else if l = "bare" then { a with bare := true }
  else a

/-- The branch value a single line contributes, following the arm order of
the loop (a `HEAD ` line is tested first and contributes none). -/
def lineBranchVal (l : String) : Option String :=
  if strStartsWith l "HEAD " then none
  else if strStartsWith l "branch " then some (stripRefs (jsSlice l 7))
  else none

/-- The branch value left in the accumulator by a block: the contribution of
the last line that has one. -/
def lastBranchValue : List String → Option String
  | [] => none
  | l :: rest =>
    match lastBranchValue rest with
    | some b => some b
    | none => lineBranchVal l

lemma processLine_non_wt (ws : List Worktree) (a : WAcc) (l : String)
    (h : strStartsWith l "worktree " = false) :
    processLine (ws, a) l = (ws, blockStep a l) := by
  simp only [processLine, blockStep, h, Bool.false_eq_true, if_false]
  split_ifs <;> rfl

lemma foldl_blocks (bs : List String) (ws : List Worktree) (a : WAcc)
    (h : ∀ l ∈ bs, strStartsWith l "worktree " = false) :
    bs.foldl processLine (ws, a) = (ws, bs.foldl blockStep a) := by
  induction bs generalizing a with
  | nil => rfl
  | cons l rest ih =>
    rw [List.foldl_cons, processLine_non_wt ws a l (h l (by simp)), List.foldl_cons]
    exact ih _ (fun x hx => h x (by simp [hx]))

lemma blockStep_path (a : WAcc) (l : String) : (blockStep a l).path = a.path := by
  unfold blockStep; split_ifs <;> rfl

lemma foldl_blockStep_path (bs : List String) (a : WAcc) :
    (bs.foldl blockStep a).path = a.path := by
  induction bs generalizing a with
  | nil => rfl
  | cons l rest ih => rw [List.foldl_cons, ih, blockStep_path]

lemma blockStep_detached (a : WAcc) (l : String) (h : l ≠ "detached") :
    (blockStep a l).detached = a.detached := by
  unfold blockStep
  split_ifs <;> rfl

lemma foldl_blockStep_detached (bs : List String) (a : WAcc)
    (h : ∀ l ∈ bs, l ≠ "detached") :
    (bs.foldl blockStep a).detached = a.detached := by
  induction bs generalizing a with
  | nil => rfl
  | cons l rest ih =>
    rw [List.foldl_cons, ih _ (fun x hx => h x (by simp [hx])),
      blockStep_detached a l (h l (by simp))]

lemma blockStep_branch (a : WAcc) (l : String) :
    (blockStep a l).branch =
      match lineBranchVal l with
      | some b => some b
      | none => a.branch := by
  unfold blockStep lineBranchVal
  split_ifs <;> rfl

lemma foldl_branch_none (bs : List String) (a : WAcc)
    (h : lastBranchValue bs = none) :
    (bs.foldl blockStep a).branch = a.branch := by
  induction bs generalizing a with
  | nil => rfl
  | cons l rest ih =>
    rw [List.foldl_cons]
    unfold lastBranchValue at h
    cases hr : lastBranchValue rest with
    | some b => rw [hr] at h; simp at h
    | none =>
      rw [hr] at h
      simp only at h
      rw [ih _ hr, blockStep_branch, h]

lemma foldl_branch_some (bs : List String) (a : WAcc) (b : String)
    (h : lastBranchValue bs = some b) :
    (bs.foldl blockStep a).branch = some b := by
  induction bs generalizing a with
  | nil => simp [lastBranchValue] at h
  | cons l rest ih =>
    rw [List.foldl_cons]
    unfold lastBranchValue at h
    cases hr : lastBranchValue rest with
    | some b2 =>
      rw [hr] at h
      simp only [Option.some.injEq] at h
      subst h
      exact ih _ hr
    | none =>
      rw [hr] at h
      simp only at h
      rw [foldl_branch_none rest _ hr, blockStep_branch, h]

lemma isEmpty_false_of_path (a : WAcc) (p : String) (h : a.path = some p) :
    a.isEmpty = false := by
  simp [WAcc.isEmpty, h]

lemma flushAcc_of_path (ws : List Worktree) (a : WAcc) (p : String)
    (h : a.path = some p) :
    flushAcc ws a = ws ++ [finalize a] := by
  simp [flushAcc, isEmpty_false_of_path a p h]

lemma parse_run_paths (ls : List String) (ws : List Worktree) (a : WAcc) (p : String)
    (h : a.path = some p) :
    (parseFinish (ls.foldl processLine (ws, a))).map (fun w => w.path) =
      ws.map (fun w => w.path) ++ some p :: wtPaths ls := by
  induction ls generalizing ws a p with
  | nil =>
    simp [parseFinish, flushAcc_of_path ws a p h, wtPaths, finalize, h]
  | cons l rest ih =>
    rw [List.foldl_cons]
    by_cases hw : strStartsWith l "worktree " = true
    · have hstep : processLine (ws, a) l =
          (ws ++ [finalize a], { WAcc.empty with path := some (jsSlice l 9) }) := by
        simp [processLine, hw, flushAcc_of_path ws a p h]
      rw [hstep, ih _ _ (jsSlice l 9) rfl]
      simp [wtPaths, hw, List.filter_cons, finalize, h, List.map_append]
    · have hw' : strStartsWith l "worktree " = false := by simpa using hw
      rw [processLine_non_wt ws a l hw',
        ih _ _ p (by rw [blockStep_path]; exact h)]
      simp [wtPaths, List.filter_cons, hw']

lemma parse_from_clean_start (ls : List String)
    (h : ∀ l ∈ ls.takeWhile (fun l => !strStartsWith l "worktree "),
      isAttrLine l = false) :
    (parseFinish (ls.foldl processLine ([], WAcc.empty))).map (fun w => w.path) =
      wtPaths ls := by
  induction ls with
  | nil => rfl
  | cons l rest ih =>
    rw [List.foldl_cons]
    by_cases hw : strStartsWith l "worktree " = true
    · have hstep : processLine ([], WAcc.empty) l =
          ([], { WAcc.empty with path := some (jsSlice l 9) }) := by
        simp [processLine, hw, flushAcc, WAcc.isEmpty, WAcc.empty]
      rw [hstep, parse_run_paths rest [] _ (jsSlice l 9) rfl]
      simp [wtPaths, List.filter_cons, hw]
    · have hw' : strStartsWith l "worktree " = false := by simpa using hw
      have hmem : l ∈ (l :: rest).takeWhile (fun l => !strStartsWith l "worktree ") := by
        rw [List.takeWhile_cons_of_pos (by simp [hw'])]
        simp
      have hl : isAttrLine l = false := h l hmem
      simp only [isAttrLine, Bool.or_eq_false_iff] at hl
      obtain ⟨⟨⟨h1, h2⟩, h3⟩, h4⟩ := hl
      have hid : processLine ([], WAcc.empty) l = ([], WAcc.empty) := by
        simp only [processLine, hw', h1, h2, Bool.false_eq_true, if_false]
        simp [decide_eq_false_iff_not.mp h3, decide_eq_false_iff_not.mp h4]
      rw [hid, ih]
      · simp [wtPaths, List.filter_cons, hw']
      · intro x hx
        refine h x ?_
        rw [List.takeWhile_cons_of_pos (by simp [hw'])]
        simp [hx]

lemma processLine_fst_extends (ws : List Worktree) (a : WAcc) (l : String) :
    ∃ t, (processLine (ws, a) l).1 = ws ++ t := by
  by_cases h1 : strStartsWith l "worktree " = true
  · by_cases h2 : a.isEmpty = true
    · exact ⟨[], by simp [processLine, flushAcc, h1, h2]⟩
    · exact ⟨[finalize a], by simp [processLine, flushAcc, h1, h2]⟩
  · rw [processLine_non_wt ws a l (by simpa using h1)]
    exact ⟨[], by simp⟩

lemma parseFinish_extends (ls : List String) (ws : List Worktree) (a : WAcc) :
    ∃ t, parseFinish (ls.foldl processLine (ws, a)) = ws ++ t := by
  induction ls generalizing ws a with
  | nil =>
    by_cases h2 : a.isEmpty = true
    · exact ⟨[], by simp [parseFinish, flushAcc, h2]⟩
    · exact ⟨[finalize a], by simp [parseFinish, flushAcc, h2]⟩
  | cons l rest ih =>
    rw [List.foldl_cons]
    obtain ⟨t1, ht1⟩ := processLine_fst_extends ws a l
    obtain ⟨t2, ht2⟩ := ih (processLine (ws, a) l).1 (processLine (ws, a) l).2
    rw [show processLine (ws, a) l = ((processLine (ws, a) l).1, (processLine (ws, a) l).2) from rfl] at ht2 ⊢
    exact ⟨t1 ++ t2, by rw [ht2, ht1, List.append_assoc]⟩

/-- The index at which the record opened after processing `pre` will land:
records already closed, plus one if an open accumulator will be flushed by
the next `worktree ` line. -/
def recIdx (pre : List String) : Nat :=
  let st := pre.foldl processLine ([], WAcc.empty)
  st.1.length + (if st.2.isEmpty then 0 else 1)

lemma flushAcc_length (ws : List Worktree) (a : WAcc) :
    (flushAcc ws a).length = ws.length + (if a.isEmpty then 0 else 1) := by
  unfold flushAcc
  split_ifs <;> simp

lemma strStartsWith_append (x y : String) : strStartsWith (x ++ y) x = true := by
  unfold strStartsWith
  rw [String.data_append]
  exact List.isPrefixOf_iff_prefix.mpr ⟨y.data, rfl⟩

lemma jsSlice_append (x y : String) : jsSlice (x ++ y) x.data.length = y := by
  unfold jsSlice
  rw [String.data_append, List.drop_left]

lemma jsSlice_wt (p : String) : jsSlice ("worktree " ++ p) 9 = p := by
  have h9 : (9 : Nat) = ("worktree " : String).data.length := by decide
  rw [h9, jsSlice_append]

/-- C2 amended: a record whose block (the non-`worktree ` lines after its
`worktree ` line, up to the next `worktree ` line or end of input) contains a
`branch ` line has `branch` equal to the value of the last such line with a
leading `refs/heads/` prefix stripped, provided that stripped value is
non-empty (an empty value is falsy in JS and becomes `null`), and has
`detached = false` provided the block contains no bare `detached` line (the
parser never resets `detached` when it sees a `branch ` line). -/
theorem branch_block_record (output : String) (pre bs rest : List String) (p b : String)
    (hsplit : parsedLines output = pre ++ ("worktree " ++ p) :: (bs ++ rest))
    (hnw : ∀ l ∈ bs, strStartsWith l "worktree " = false)
    (hrest : rest = [] ∨ ∃ l rest2, rest = l :: rest2 ∧ strStartsWith l "worktree " = true)
    (hnd : ∀ l ∈ bs, l ≠ "detached")
    (hb : lastBranchValue bs = some b)
    (hne : b ≠ "") :
    ∃ w, (parseWorktreeList output)[recIdx pre]? = some w
      ∧ w.path = some p ∧ w.branch = some b ∧ w.detached = false := by
  obtain ⟨ws0, a0, hst⟩ : ∃ ws0 a0, pre.foldl processLine ([], WAcc.empty) = (ws0, a0) :=
    ⟨_, _, rfl⟩
  set acc1 : WAcc := ⟨some p, none, none, false, false⟩ with hacc1
  set A : WAcc := bs.foldl blockStep acc1 with hA
  have hApath : A.path = some p := by rw [hA, foldl_blockStep_path]
  have hAbranch : A.branch = some b := by rw [hA]; exact foldl_branch_some bs acc1 b hb
  have hAdet : A.detached = false := by rw [hA, foldl_blockStep_detached bs acc1 hnd]
  set ws1 : List Worktree := flushAcc ws0 a0 with hws1
  have hidx : recIdx pre = ws1.length := by
    simp [recIdx, hst, hws1, flushAcc_length]
  have hfold : (parsedLines output).foldl processLine ([], WAcc.empty) =
      rest.foldl processLine (ws1, A) := by
    rw [hsplit, List.foldl_append, hst, List.foldl_cons]
    have hstep : processLine (ws0, a0) ("worktree " ++ p) = (ws1, acc1) := by
      simp [processLine, strStartsWith_append, jsSlice_wt, hws1, hacc1, WAcc.empty]
    rw [hstep, List.foldl_append, foldl_blocks bs ws1 acc1 hnw, hA]
  refine ⟨finalize A, ?_, ?_, ?_, ?_⟩
  · unfold parseWorktreeList
    rw [hfold, hidx]
    rcases hrest with hnil | ⟨l, rest2, hcons, hwl⟩
    · subst hnil
      rw [List.foldl_nil, parseFinish, flushAcc_of_path ws1 A p hApath,
        List.getElem?_append_right (le_refl ws1.length)]
      simp
    · subst hcons
      rw [List.foldl_cons]
      have hstep2 : processLine (ws1, A) l =
          (ws1 ++ [finalize A], { WAcc.empty with path := some (jsSlice l 9) }) := by
        simp [processLine, hwl, flushAcc_of_path ws1 A p hApath]
      rw [hstep2]
      obtain ⟨t, ht⟩ := parseFinish_extends rest2 (ws1 ++ [finalize A]) _
      rw [ht, List.append_assoc,
        List.getElem?_append_right (le_refl ws1.length)]
      simp
  · simp [finalize, hApath]
  · simp [finalize, hAbranch, hne]
  · simp [finalize, hAdet]

/-- C2 counterexample: in `"worktree /a\ndetached\nbranch refs/heads/"` the
block of the record contains a line beginning with `branch ` whose remainder after
stripping `refs/heads/` is the empty string.  The claim requires
`detached = false` and `branch` equal to that remainder (`""`); the code
instead leaves `detached = true` (set by the earlier `detached` line) and
stores `null` for the branch (the empty string is falsy, so
`wt.branch || null` yields `null`). -/
theorem branch_block_counterexample :
    parseWorktreeList "worktree /a\ndetached\nbranch refs/heads/" =
      [⟨some "/a", none, "", false, true⟩] := by
  decide

/-- Closed witness for `branch_block_record` at a concrete listing. -/
theorem branch_block_record_witness :
    ∃ w, (parseWorktreeList "worktree /a\nbranch refs/heads/feat\nHEAD abc")[recIdx []]? = some w
      ∧ w.path = some "/a" ∧ w.branch = some "feat" ∧ w.detached = false := by
  have hsplit : parsedLines "worktree /a\nbranch refs/heads/feat\nHEAD abc" =
      [] ++ ("worktree " ++ "/a") :: (["branch refs/heads/feat", "HEAD abc"] ++ []) := by
    decide
  exact branch_block_record "worktree /a\nbranch refs/heads/feat\nHEAD abc"
    [] ["branch refs/heads/feat", "HEAD abc"] [] "/a" "feat"
    hsplit (by decide) (Or.inl rfl) (by decide) (by decide) (by decide)

/-- C3: `Worktree.isMain` is true exactly when `branch` is null, `detached`
is false, and `bare` is false (`src/models/worktree.ts`). -/
theorem isMain_iff (w : Worktree) :
    w.isMain = true ↔ (w.branch = none ∧ w.detached = false ∧ w.bare = false) := by
  cases w with
  | mk p b hd bb d =>
    cases b <;> cases bb <;> cases d <;> simp [Worktree.isMain]

/-- C1 counterexample: the input `"branch x\nworktree /a"` contains exactly
one line beginning with `worktree `, yet `parseWorktreeList` returns two
records — the attribute line before the first `worktree ` line opens a
phantom record (with no `path`) that is flushed when the `worktree ` line
arrives.  The claim "exactly N records for N `worktree ` lines" is therefore
false on this input. -/
theorem parse_count_counterexample :
    ((parsedLines "branch x\nworktree /a").filter
      (fun l => strStartsWith l "worktree ")).length = 1
    ∧ (parseWorktreeList "branch x\nworktree /a").length = 2 := by
  constructor
  · decide
  · decide

/-- C1 amended: provided no recognized attribute line (`HEAD `, `branch `,
`detached`, `bare`) precedes the first `worktree ` line (true of every
porcelain listing git emits), the parser returns exactly one record per
`worktree ` line — counted over the trimmed non-empty lines — and the `path`
fields are the remainders of those lines, in input order. -/
theorem parse_records_in_order (output : String)
    (h : ∀ l ∈ (parsedLines output).takeWhile (fun l => !strStartsWith l "worktree "),
      isAttrLine l = false) :
    (parseWorktreeList output).map (fun w => w.path) = wtPaths (parsedLines output)
    ∧ (parseWorktreeList output).length =
      ((parsedLines output).filter (fun l => strStartsWith l "worktree ")).length := by
  have hmap := parse_from_clean_start (parsedLines output) h
  refine ⟨hmap, ?_⟩
  have := congrArg List.length hmap
  simpa [wtPaths] using this

/-- Closed witness for `parse_records_in_order` at a concrete listing. -/
theorem parse_records_in_order_witness :
    (parseWorktreeList "worktree /a\nbranch refs/heads/x\nworktree /b\ndetached").map
      (fun w => w.path) = [some "/a", some "/b"]
    ∧ (parseWorktreeList "worktree /a\nbranch refs/heads/x\nworktree /b\ndetached").length = 2 := by
  have h := parse_records_in_order "worktree /a\nbranch refs/heads/x\nworktree /b\ndetached"
    (by decide)
  exact ⟨by rw [h.1]; decide, by rw [h.2]; decide⟩

/-- A scalar JS value occurring in a `HookContext` (`branch`, `path`,
`force`, `success`, `error`, …). -/
inductive CVal where
  | s (v : String)
  | b (v : Bool)
  | n (v : Int)
  | null
deriving DecidableEq, Repr

/-- JS truthiness of a context value. -/
def CVal.truthy : CVal → Bool
  | .s v => v ≠ ""
  | .b v => v
  | .n v => v ≠ 0
  | .null => false

/-- JS `String(value)` on a context value. -/
def CVal.jsString : CVal → String
  | .s v => v
  | .b true => "true"
  | .b false => "false"
  | .n v => toString v
  | .null => "null"

/-- A `HookContext`: a flat JS object, modelled as an association list with
unique keys. -/
abbrev HookCtx := List (String × CVal)

/-- JS property access on an object modelled as an association list
(first-match lookup; objects built from YAML have unique keys). -/
def alookup {α : Type} : List (String × α) → String → Option α
  | [], _ => none
  | (k, v) :: rest, key => if k = key then some v else alookup rest key

/-- `context.path` combined with the JS truthiness checks the source applies
to it (`context?.path`, `if (context.path)`).  Per the `HookContext`
interface the `path` property, when present, is a string; a non-string value
there is outside the typed interface and treated as absent. -/
def ctxPath (ctx : HookCtx) : Option String :=
  match alookup ctx "path" with
  | some (.s p) => if p = "" then none else some p
  | _ => none

/-- The structured hook entry shape (`HookConfig` interface): optional
`command`, `commands`, `pwd`, `stop_on_error`. -/
structure HookHash where
  command : Option String
  commands : Option (List String)
  pwd : Option String
  stop_on_error : Option Bool
deriving DecidableEq, Repr

/-- A parsed YAML value as the hook loader sees it.  YAML mappings that match
the `HookConfig` shape are modelled by `hash`; `map` is the generic mapping
used for the `hooks:` container. -/
inductive YVal where
  | str (s : String)
  | arr (cs : List String)
  | hash (h : HookHash)
  | map (m : List (String × YVal))
  | bool (b : Bool)
  | null

/-- JS falsiness of a hook entry (`if (!hookConfig) return true`): `null`,
`undefined` (absence, handled by the lookup), `""` and `false` are falsy;
arrays and objects are always truthy. -/
def YVal.falsy : YVal → Bool
  | .str s => s = ""
  | .bool b => !b
  | .null => true
  | _ => false

/-- The `typeof` test for the object type (true for arrays, plain objects and `null`). -/
def YVal.isObjectType : YVal → Bool
  | .str _ => false
  | .bool _ => false
  | _ => true

/-- The own enumerable string-keyed entries of a value used as a
`Record<string, unknown>`: a mapping gives its entries, an array contributes
no string keys, a `HookConfig`-shaped object its present fields. -/
def YVal.objEntries : YVal → List (String × YVal)
  | .map m => m
  | .hash h =>
    (match h.command with | some c => [("command", YVal.str c)] | none => []) ++
    (match h.commands with | some cs => [("commands", YVal.arr cs)] | none => []) ++
    (match h.pwd with | some p => [("pwd", YVal.str p)] | none => []) ++
    (match h.stop_on_error with | some sb => [("stop_on_error", YVal.bool sb)] | none => [])
  | _ => []

/-- `HookManager.HOOK_TYPES`: the closed set of lifecycle events. -/
def HOOK_TYPES : List String := ["pre_add", "post_add", "pre_remove", "post_remove"]

/-- `HookManager.loadHooks`, after the file has been located and parsed (file
lookup and YAML parsing are external collaborators): if the document has a
truthy `hooks` key of object type it is used exclusively, otherwise the
top-level document itself is the hook mapping. -/
def loadHooks (config : List (String × YVal)) : List (String × YVal) :=
  match alookup config "hooks" with
  | some v => if !v.falsy && v.isObjectType then v.objEntries else config
  | none => config

/-- `HookManager.hasHook`: recognized event with a non-null, non-absent
entry. -/
def hasHook (hooks : List (String × YVal)) (hookType : String) : Bool :=
  decide (hookType ∈ HOOK_TYPES) &&
    match alookup hooks hookType with
    | some .null => false
    | some _ => true
    | none => false

/-- `HookManager.listHooks`: the entries of the recognized events that
`hasHook` accepts, in the fixed `HOOK_TYPES` order. -/
def listHooks (hooks : List (String × YVal)) : List (String × YVal) :=
  HOOK_TYPES.filterMap (fun t =>
    if hasHook hooks t then (alookup hooks t).map (fun v => (t, v)) else none)

/-- `HookManager.defaultWorkingDirectory`: `post_add` and `pre_remove` hooks
run in the worktree directory named by a truthy `context.path` (resolved
against the repository root when relative); everything else runs in the
repository root. -/
def defaultWorkingDirectory (root : String) (hookType : Option String)
    (context : Option HookCtx) : String :=
  match hookType, context with
  | some t, some c =>
    if t = "post_add" ∨ t = "pre_remove" then
      match ctxPath c with
      | some p => jsResolve root p
      | none => root
    else root
  | _, _ => root

/-- One recorded subprocess launch: the command string handed to the shell
and the working directory it runs in. -/
structure Invocation where
  cmd : String
  cwd : String
deriving DecidableEq, Repr

/-- Success oracle for shell commands: command string and working directory
to "exit code zero and no execution failure". -/
abbrev ExecOracle := String → String → Bool

/-- `HookManager.executeCommand`: run one command in
`workingDir || defaultWorkingDirectory(hookType, context)`, record the
launch, and report the verdict of the oracle (the source returns false on
non-zero exit or execution failure, never throwing).  Environment
construction (`buildEnvVars`) only affects the child process, which the
oracle abstracts, so it is not tracked. -/
def executeCommand (exec : ExecOracle) (root : String) (command : String)
    (context : HookCtx) (hookType : Option String) (workingDir : Option String) :
    Bool × List Invocation :=
  let cwd :=
    match workingDir with
    | some w => if w = "" then defaultWorkingDirectory root hookType (some context) else w
    | none => defaultWorkingDirectory root hookType (some context)
  (exec command cwd, [⟨command, cwd⟩])

/-- A character matched by the `[A-Z_]+` group of the `pwd` substitution
pattern. -/
def isVarChar (c : Char) : Bool := ('A' ≤ c && c ≤ 'Z') || c = '_'

/-- JS `String.prototype.toLowerCase` (ASCII range, which is all the
substitution code exercises: variable names match `[A-Z_]+`). -/
def jsToLower (s : String) : String := String.mk (s.data.map Char.toLower)

/-- The replacement callback of the `pwd.replaceAll(/\$([A-Z_]+)/g, ...)`
call in `executeHookHash`, applied to one captured variable name: absolute
worktree path (when a truthy `context.path` exists), the two fixed root
variables, a marker-prefixed context lookup, or a process-environment
lookup — falling back to the literal token text (`"$" ++ varName`). -/
def pwdReplacer (root : String) (context : HookCtx) (env : List (String × String))
    (varName : String) : String :=
  match (if varName = "WORKTREE_ABSOLUTE_PATH" then ctxPath context else none) with
  | some p => jsResolve root p
  | none =>
    if varName = "WORKTREE_MAIN" ∨ varName = "WORKTREE_MANAGER_ROOT" then root
    else if strStartsWith varName "WORKTREE_" then
      match alookup context (jsToLower (jsSlice varName 9)) with
      | some v => if v.truthy then v.jsString else "$" ++ varName
      | none => "$" ++ varName
    else
      match alookup env varName with
      | some s => if s = "" then "$" ++ varName else s
      | none => "$" ++ varName

/-- Emit the pending `$`-run: a bare `$` (no `[A-Z_]` character followed, so
the regex did not match) stays literal; a non-empty captured run is replaced
by the callback.  `acc` holds the captured characters in reverse. -/
def substEmit (f : String → String) (acc : List Char) : List Char :=
  if acc.isEmpty then ['$'] else (f (String.mk acc.reverse)).data

/-- Scanner for `replaceAll(/\$([A-Z_]+)/g, f)`: each `$` followed by a
maximal non-empty run of `[A-Z_]` characters is replaced by `f` of that run;
replacements are not rescanned.  `acc = some a` means a `$` was seen and `a`
holds the captured run so far, reversed. -/
def substScan (f : String → String) (acc : Option (List Char)) (cs : List Char) :
    List Char :=
  match acc, cs with
  | none, [] => []
  | none, c :: rest =>
    if c = '$' then substScan f (some []) rest
    else c :: substScan f none rest
  | some a, [] => substEmit f a
  | some a, c :: rest =>
    if isVarChar c then substScan f (some (c :: a)) rest
    else if c = '$' then substEmit f a ++ substScan f (some []) rest
    else substEmit f a ++ (c :: substScan f none rest)

/-- The `pwd` variable substitution of `executeHookHash`. -/
def substPwd (root : String) (context : HookCtx) (env : List (String × String))
    (pwd : String) : String :=
  String.mk (substScan (pwdReplacer root context env) none pwd.data)

/-- The command loop of `executeHookHash`: run the list sequentially; on a
failure, abort returning false when `stopOnError`, otherwise keep going and
report `stopOnError ? allSucceeded : true` at the end. -/
def runCmds (exec : ExecOracle) (root : String) (context : HookCtx)
    (hookType : Option String) (pwd : Option String) (stopOnError : Bool) :
    List String → Bool → Bool × List Invocation
  | [], allOk => (if stopOnError then allOk else true, [])
  | c :: cs, allOk =>
    let r := executeCommand exec root c context hookType pwd
    if r.1 then
      let rest := runCmds exec root context hookType pwd stopOnError cs allOk
      (rest.1, r.2 ++ rest.2)
    else if stopOnError then (false, r.2)
    else
      let rest := runCmds exec root context hookType pwd stopOnError cs false
      (rest.1, r.2 ++ rest.2)

/-- `HookManager.executeHookHash`: substitute variables into `pwd` (when
truthy), then run `commands` with the configured stop-on-error policy
(default true), else the single truthy `command`, else succeed. -/
def executeHookHash (exec : ExecOracle) (root : String) (env : List (String × String))
    (hookConfig : HookHash) (context : HookCtx) (hookType : String) :
    Bool × List Invocation :=
  let pwd : Option String :=
    match hookConfig.pwd with
    | some p => some (if p = "" then p else substPwd root context env p)
    | none => none
  match hookConfig.commands with
  | some cs =>
    runCmds exec root context (some hookType) pwd (hookConfig.stop_on_error != some false) cs true
  | none =>
    match hookConfig.command with
    | some c => if c = "" then (true, []) else executeCommand exec root c context (some hookType) pwd
    | none => (true, [])

/-- The bare-list arm of `executeHook`: run each command in order, stopping
at the first failure. -/
def runSeq (exec : ExecOracle) (root : String) (context : HookCtx)
    (hookType : Option String) : List String → Bool × List Invocation
  | [] => (true, [])
  | c :: cs =>
    let r := executeCommand exec root c context hookType none
    if r.1 then
      let rest := runSeq exec root context hookType cs
      (rest.1, r.2 ++ rest.2)
    else (false, r.2)

/-- `HookManager.executeHook`: unrecognized events, absent entries and falsy
entries are no-op successes; otherwise dispatch on the shape of the entry (string,
array, object).  Truthy non-object non-string values fall to the final
`result = true` arm. -/
def executeHook (exec : ExecOracle) (root : String) (env : List (String × String))
    (hooks : List (String × YVal)) (hookType : String) (context : HookCtx) :
    Bool × List Invocation :=
  if hookType ∉ HOOK_TYPES then (true, [])
  else
    match alookup hooks hookType with
    | none => (true, [])
    | some cfg =>
      if cfg.falsy then (true, [])
      else
        match cfg with
        | .str s => executeCommand exec root s context (some hookType) none
        | .arr cs => runSeq exec root context (some hookType) cs
        | .hash h => executeHookHash exec root env h context hookType
        | .map _ => executeHookHash exec root env ⟨none, none, none, none⟩ context hookType
        | .bool _ => (true, [])
        | .null => (true, [])

/-- C4: an unrecognized event name, an event with no configuration entry, or
a null entry makes `executeHook` return true immediately without launching
any subprocess. -/
theorem executeHook_noop (exec : ExecOracle) (root : String) (env : List (String × String))
    (hooks : List (String × YVal)) (hookType : String) (context : HookCtx)
    (h : hookType ∉ HOOK_TYPES ∨ alookup hooks hookType = none ∨
      alookup hooks hookType = some YVal.null) :
    executeHook exec root env hooks hookType context = (true, []) := by
  by_cases hm : hookType ∈ HOOK_TYPES
  · rcases h with h | h | h
    · exact absurd hm h
    · simp [executeHook, hm, h]
    · simp [executeHook, hm, h, YVal.falsy]
  · simp [executeHook, hm]

/-- Closed witness for `executeHook_noop`: an event with no entry. -/
theorem executeHook_noop_witness :
    executeHook (fun _ _ => true) "/repo" [] [("pre_add", YVal.str "echo hi")]
      "post_add" [] = (true, []) :=
  executeHook_noop _ _ _ _ _ _ (Or.inr (Or.inl rfl))

lemma runCmds_first_fails (exec : ExecOracle) (root : String) (context : HookCtx)
    (hookType : Option String) (pwd : Option String) (c1 : String) (cs : List String)
    (allOk : Bool) (hfail : ∀ d, exec c1 d = false) :
    runCmds exec root context hookType pwd true (c1 :: cs) allOk =
      (false, (executeCommand exec root c1 context hookType pwd).2) := by
  simp [runCmds, executeCommand, hfail]

lemma runCmds_continue_all (exec : ExecOracle) (root : String) (context : HookCtx)
    (hookType : Option String) (pwd : Option String) (cs : List String) :
    ∀ allOk, (runCmds exec root context hookType pwd false cs allOk).1 = true
      ∧ (runCmds exec root context hookType pwd false cs allOk).2.map Invocation.cmd = cs := by
  induction cs with
  | nil => intro allOk; exact ⟨rfl, rfl⟩
  | cons c cs ih =>
    intro allOk
    by_cases hr : (executeCommand exec root c context hookType pwd).1 = true
    · simp only [runCmds, hr, if_true]
      exact ⟨(ih allOk).1, by rw [List.map_append, (ih allOk).2]; rfl⟩
    · have hr' : (executeCommand exec root c context hookType pwd).1 = false := by
        simpa using hr
      simp only [runCmds, hr', Bool.false_eq_true, if_false]
      exact ⟨(ih false).1, by rw [List.map_append, (ih false).2]; rfl⟩

/-- C5: a structured entry with `commands: [c1, c2]` and `stop_on_error`
true or unset aborts at the failing `c1`: the call returns false and the
only launched command is `c1`. -/
theorem executeHook_stops_on_failure (exec : ExecOracle) (root : String)
    (env : List (String × String)) (hooks : List (String × YVal)) (hookType : String)
    (context : HookCtx) (co pw : Option String) (so : Option Bool) (c1 c2 : String)
    (hev : hookType ∈ HOOK_TYPES)
    (hcfg : alookup hooks hookType = some (YVal.hash ⟨co, some [c1, c2], pw, so⟩))
    (hso : so ≠ some false)
    (hfail : ∀ d, exec c1 d = false) :
    (executeHook exec root env hooks hookType context).1 = false
    ∧ (executeHook exec root env hooks hookType context).2.map Invocation.cmd = [c1] := by
  have hdisp : executeHook exec root env hooks hookType context =
      executeHookHash exec root env ⟨co, some [c1, c2], pw, so⟩ context hookType := by
    simp [executeHook, hev, hcfg, YVal.falsy]
  have hstop : ((⟨co, some [c1, c2], pw, so⟩ : HookHash).stop_on_error != some false) = true := by
    cases so with
    | none => rfl
    | some sb => cases sb with
      | false => exact absurd rfl hso
      | true => rfl
  rw [hdisp]
  unfold executeHookHash
  simp only [hstop]
  rw [runCmds_first_fails exec root context (some hookType) _ c1 [c2] true hfail]
  simp [executeCommand]

/-- Closed witness for `executeHook_stops_on_failure`. -/
theorem executeHook_stops_on_failure_witness :
    (executeHook (fun _ _ => false) "/r" [] [("pre_add", YVal.hash ⟨none, some ["a", "b"], none, none⟩)]
      "pre_add" []).1 = false
    ∧ (executeHook (fun _ _ => false) "/r" [] [("pre_add", YVal.hash ⟨none, some ["a", "b"], none, none⟩)]
      "pre_add" []).2.map Invocation.cmd = ["a"] :=
  executeHook_stops_on_failure (fun _ _ => false) "/r" [] _ "pre_add" [] none none none "a" "b"
    (by decide) rfl (by decide) (fun _ => rfl)

/-- C6: a structured entry with `stop_on_error: false` runs every listed
command — failures included — and the call reports overall success. -/
theorem executeHook_no_stop_runs_all (exec : ExecOracle) (root : String)
    (env : List (String × String)) (hooks : List (String × YVal)) (hookType : String)
    (context : HookCtx) (co pw : Option String) (cs : List String)
    (hev : hookType ∈ HOOK_TYPES)
    (hcfg : alookup hooks hookType = some (YVal.hash ⟨co, some cs, pw, some false⟩)) :
    (executeHook exec root env hooks hookType context).1 = true
    ∧ (executeHook exec root env hooks hookType context).2.map Invocation.cmd = cs := by
  have hdisp : executeHook exec root env hooks hookType context =
      executeHookHash exec root env ⟨co, some cs, pw, some false⟩ context hookType := by
    simp [executeHook, hev, hcfg, YVal.falsy]
  rw [hdisp]
  unfold executeHookHash
  simp only [show ((⟨co, some cs, pw, some false⟩ : HookHash).stop_on_error != some false) = false from rfl]
  exact runCmds_continue_all exec root context (some hookType) _ cs true

/-- Closed witness for `executeHook_no_stop_runs_all`: both commands fail,
both are launched, the call still succeeds. -/
theorem executeHook_no_stop_runs_all_witness :
    (executeHook (fun _ _ => false) "/r" [] [("post_add", YVal.hash ⟨none, some ["a", "b"], none, some false⟩)]
      "post_add" []).1 = true
    ∧ (executeHook (fun _ _ => false) "/r" [] [("post_add", YVal.hash ⟨none, some ["a", "b"], none, some false⟩)]
      "post_add" []).2.map Invocation.cmd = ["a", "b"] :=
  executeHook_no_stop_runs_all (fun _ _ => false) "/r" [] _ "post_add" [] none none ["a", "b"]
    (by decide) rfl

/-- C7: without an explicit `pwd` override, a `post_add` or `pre_remove`
hook command runs in the context `path` resolved to absolute form (against
the repository root when relative); `pre_add` and `post_remove` commands,
and any command whose context carries no truthy path, run in the repository
root. -/
theorem default_cwd_resolution (exec : ExecOracle) (root command : String)
    (context : HookCtx) (t p : String) :
    ((t = "post_add" ∨ t = "pre_remove") → ctxPath context = some p →
      (executeCommand exec root command context (some t) none).2 =
        [⟨command, jsResolve root p⟩])
    ∧ ((t = "pre_add" ∨ t = "post_remove") →
      (executeCommand exec root command context (some t) none).2 = [⟨command, root⟩])
    ∧ (ctxPath context = none →
      (executeCommand exec root command context (some t) none).2 = [⟨command, root⟩]) := by
  refine ⟨?_, ?_, ?_⟩
  · intro ht hp
    simp [executeCommand, defaultWorkingDirectory, ht, hp]
  · intro ht
    rcases ht with ht | ht <;> subst ht <;> simp [executeCommand, defaultWorkingDirectory]
  · intro hp
    by_cases ht : t = "post_add" ∨ t = "pre_remove" <;>
      simp [executeCommand, defaultWorkingDirectory, ht, hp]

/-- Closed witness for `default_cwd_resolution`: `post_add` with a relative
path runs in the resolved worktree directory; `pre_add` with the same
context runs in the repository root. -/
theorem default_cwd_resolution_witness :
    (executeCommand (fun _ _ => true) "/repo" "c" [("path", CVal.s "../w")] (some "post_add") none).2 =
      [⟨"c", jsResolve "/repo" "../w"⟩]
    ∧ (executeCommand (fun _ _ => true) "/repo" "c" [("path", CVal.s "../w")] (some "pre_add") none).2 =
      [⟨"c", "/repo"⟩] :=
  ⟨(default_cwd_resolution (fun _ _ => true) "/repo" "c" [("path", CVal.s "../w")] "post_add" "../w").1
      (Or.inl rfl) rfl,
   (default_cwd_resolution (fun _ _ => true) "/repo" "c" [("path", CVal.s "../w")] "pre_add" "../w").2.1
      (Or.inl rfl)⟩

/-- C8 counterexample: with context `{ force: false }`, the token
`$WORKTREE_FORCE` maps to the context key `force`, which is present — yet
the substitution leaves the literal token text instead of the string
form `"false"` of the value, because the fallback expression falls back to
the match for every falsy context value.  This refutes the claimed "the
literal original token text is used if and only if that key is absent". -/
theorem pwd_subst_counterexample :
    alookup [("force", CVal.b false)] "force" = some (CVal.b false)
    ∧ (CVal.b false).jsString = "false"
    ∧ substPwd "/repo" [("force", CVal.b false)] [] "$WORKTREE_FORCE" = "$WORKTREE_FORCE"
    ∧ substPwd "/repo" [("force", CVal.b false)] [] "$WORKTREE_FORCE" ≠ "false" := by
  refine ⟨rfl, rfl, by decide, by decide⟩

lemma substScan_var_run (f : String → String) (a : List Char) (data : List Char)
    (h : ∀ c ∈ data, isVarChar c = true) :
    substScan f (some a) data = substEmit f (data.reverse ++ a) := by
  induction data generalizing a with
  | nil => simp [substScan]
  | cons c rest ih =>
    simp only [substScan, h c (by simp), if_true]
    rw [ih (c :: a) (fun x hx => h x (by simp [hx]))]
    simp

lemma data_ne_nil_of_ne_empty (s : String) (h : s ≠ "") : s.data ≠ [] := by
  intro hd
  apply h
  cases s with
  | mk d => cases hd; rfl

/-- C8 amended: for an uppercase-identifier token beginning with
`WORKTREE_` that is none of the three special variable names, the
substitution looks up the raw context at the key obtained by stripping the
marker and lower-casing; the string form of the value is substituted when the
value is truthy, and the literal original token text is left in place when
the key is absent or when its value is falsy (`false`, `0`, `""`, `null`) —
`String(context[key] || match)` falls back to the match text for every falsy
value.  No tier of the lookup can raise (the substitution is a total
function). -/
theorem pwd_subst_context_token (root : String) (context : HookCtx)
    (env : List (String × String)) (varName : String)
    (hchars : ∀ c ∈ varName.data, isVarChar c = true)
    (hne : varName ≠ "")
    (habs : varName ≠ "WORKTREE_ABSOLUTE_PATH")
    (hmain : varName ≠ "WORKTREE_MAIN")
    (hroot : varName ≠ "WORKTREE_MANAGER_ROOT")
    (hpre : strStartsWith varName "WORKTREE_" = true) :
    substPwd root context env ("$" ++ varName) =
      match alookup context (jsToLower (jsSlice varName 9)) with
      | some v => if v.truthy then v.jsString else "$" ++ varName
      | none => "$" ++ varName := by
  have hdata : ("$" ++ varName).data = '$' :: varName.data := by
    rw [String.data_append]; rfl
  have hrepl : substPwd root context env ("$" ++ varName) =
      pwdReplacer root context env varName := by
    unfold substPwd
    rw [hdata]
    show String.mk (substScan _ (some []) varName.data) = _
    rw [substScan_var_run _ [] varName.data hchars, List.append_nil]
    unfold substEmit
    have hrev : (varName.data.reverse).isEmpty = false := by
      simp [List.isEmpty_iff, data_ne_nil_of_ne_empty varName hne]
    rw [hrev]
    simp only [Bool.false_eq_true, if_false, List.reverse_reverse]
  rw [hrepl]
  unfold pwdReplacer
  rw [if_neg habs]
  have hm : ¬ (varName = "WORKTREE_MAIN" ∨ varName = "WORKTREE_MANAGER_ROOT") := by
    rintro (h | h)
    · exact hmain h
    · exact hroot h
  rw [if_neg hm, if_pos hpre]

/-- Closed witness for `pwd_subst_context_token`: a truthy context value is
substituted by its string form. -/
theorem pwd_subst_context_token_witness :
    substPwd "/repo" [("branch", CVal.s "feat")] [] "$WORKTREE_BRANCH" = "feat" := by
  have h := pwd_subst_context_token "/repo" [("branch", CVal.s "feat")] [] "WORKTREE_BRANCH"
    (by decide) (by decide) (by decide) (by decide) (by decide) (by decide)
  rw [show ("$WORKTREE_BRANCH" : String) = "$" ++ "WORKTREE_BRANCH" by rfl, h]
  rfl

lemma alookup_none_of_keys {α : Type} (m : List (String × α)) (key : String)
    (h : ∀ kv ∈ m, kv.1 ≠ key) : alookup m key = none := by
  induction m with
  | nil => rfl
  | cons kv rest ih =>
    unfold alookup
    rw [if_neg (h kv (by simp))]
    exact ih (fun x hx => h x (by simp [hx]))

/-- C9: a legacy document whose top-level keys are the event names and the
document nesting the same mapping under `hooks:` load to the same normalized
mapping, so `hasHook` and `listHooks` agree on them; and in any document
with a `hooks:` mapping, only that mapping is honored — `hasHook` and
`listHooks` are computed from it alone, ignoring every top-level sibling
key. -/
theorem hooks_schema_shapes (m doc : List (String × YVal)) :
    ((∀ kv ∈ m, kv.1 ∈ HOOK_TYPES) →
      (∀ t, hasHook (loadHooks m) t = hasHook (loadHooks [("hooks", YVal.map m)]) t)
      ∧ listHooks (loadHooks m) = listHooks (loadHooks [("hooks", YVal.map m)]))
    ∧ (∀ mm, alookup doc "hooks" = some (YVal.map mm) →
      (∀ t, hasHook (loadHooks doc) t = hasHook mm t)
      ∧ listHooks (loadHooks doc) = listHooks mm) := by
  have hnested : ∀ mm : List (String × YVal), loadHooks [("hooks", YVal.map mm)] = mm := by
    intro mm; rfl
  constructor
  · intro hk
    have hlegacy : loadHooks m = m := by
      unfold loadHooks
      rw [alookup_none_of_keys m "hooks" (fun kv hkv heq => by
        have := hk kv hkv
        rw [heq] at this
        simp [HOOK_TYPES] at this)]
    rw [hlegacy, hnested m]
    exact ⟨fun _ => rfl, rfl⟩
  · intro mm hm
    have : loadHooks doc = mm := by
      unfold loadHooks
      rw [hm]
      rfl
    rw [this]
    exact ⟨fun _ => rfl, rfl⟩

/-- Closed witness for `hooks_schema_shapes`: a concrete mapping, nested and
legacy, and a document carrying both shapes at once. -/
theorem hooks_schema_shapes_witness :
    hasHook (loadHooks [("pre_add", YVal.str "echo a")]) "pre_add" =
      hasHook (loadHooks [("hooks", YVal.map [("pre_add", YVal.str "echo a")])]) "pre_add"
    ∧ listHooks (loadHooks [("hooks", YVal.map [("pre_add", YVal.str "echo a")]),
        ("post_add", YVal.str "ignored")]) = listHooks [("pre_add", YVal.str "echo a")] :=
  ⟨((hooks_schema_shapes [("pre_add", YVal.str "echo a")] []).1 (by
      intro kv hkv
      simp at hkv
      rw [hkv]
      simp [HOOK_TYPES])).1 "pre_add",
   ((hooks_schema_shapes [] [("hooks", YVal.map [("pre_add", YVal.str "echo a")]),
        ("post_add", YVal.str "ignored")]).2 [("pre_add", YVal.str "echo a")] rfl).2⟩

/-- Outcome of one `execa` git call with `reject: false`. -/
structure ExecResult where
  exitCode : Int
  stdout : String
  stderr : String

/-- Oracle for git subprocess outcomes: argument list to result. -/
abbrev GitOracle := List String → ExecResult

/-- `Manager.executeGitCommand` (`src/core/git/manager.ts`): non-zero exit
with non-empty stderr becomes a thrown `GitError` (modelled as
`Except.error` carrying the message); otherwise the stderr/stdout pair is
returned. -/
def executeGitCommand (git : GitOracle) (args : List String) :
    Except String (String × String) :=
  let result := git args
  if result.exitCode ≠ 0 ∧ result.stderr ≠ "" then Except.error result.stderr
  else Except.ok (result.stderr, result.stdout)

/-- A character of the injection blacklist `/[;&|`$<>\\]/` applied to both
paths and branches. -/
def dangerousChar (c : Char) : Bool :=
  c = ';' || c = '&' || c = '|' || c = '`' || c = '$' || c = '<' || c = '>' || c = '\\'

/-- `dangerousChars.test(input)`. -/
def hasDangerousChar (s : String) : Bool := s.data.any dangerousChar

/-- A character of the branch-name blacklist `/[\s~^:?*[\]\\]/` (ASCII
whitespace for `\s`; exotic Unicode spaces are not modelled). -/
def invalidBranchChar (c : Char) : Bool :=
  isJsWs c || c = '~' || c = '^' || c = ':' || c = '?' || c = '*' ||
    c = '[' || c = ']' || c = '\\'

/-- `Manager.validateInput`: the thrown `GitError` message, or `none` when
the input passes.  `isBranch` selects the branch type with its extra
checks. -/
def validateInput (input : String) (isBranch : Bool) : Option String :=
  if hasDangerousChar input then
    some ((if isBranch then "Invalid branch" else "Invalid path") ++
      ": contains potentially dangerous characters")
  else if isBranch then
    if input.data.any invalidBranchChar then
      some "Invalid branch name: contains forbidden characters"
    else if strStartsWith input "-" then
      some "Invalid branch name: cannot start with hyphen"
    else none
  else none

/-- The branch inputs the claim lists as rejected: blacklist characters,
whitespace or git-forbidden characters, or a leading hyphen. -/
def badBranchInput (b : String) : Bool :=
  hasDangerousChar b || b.data.any invalidBranchChar || strStartsWith b "-"

/-- `Manager.add`: validate `path` (and a truthy `branch`), then run
`git worktree add`; the result pairs the outcome with the git invocations
actually launched, so an empty trace means no subprocess ran. -/
def managerAdd (git : GitOracle) (path : String) (branch : Option String)
    (force : Bool) : Except String Worktree × List (List String) :=
  match validateInput path false with
  | some e => (Except.error e, [])
  | none =>
    match (match branch with
           | some br => if br ≠ "" then validateInput br true else none
           | none => none) with
    | some e => (Except.error e, [])
    | none =>
      let args := ["worktree", "add"] ++ (if force then ["--force"] else []) ++ [path] ++
        (match branch with
         | some br => if br ≠ "" then [br] else []
         | none => [])
      match executeGitCommand git args with
      | Except.error e => (Except.error e, [args])
      | Except.ok (stderr, _) =>
        if stderr ≠ "" ∧ ¬ containsSubstr stderr "Preparing worktree" = true then
          (Except.error stderr, [args])
        else
          (Except.ok ⟨some path,
            (match branch with
             | some br => if br = "" then none else some br
             | none => none), "", false, false⟩, [args])

/-- `Manager.addWithNewBranch`: validate both inputs, then
`git worktree add -b branch path`. -/
def managerAddWithNewBranch (git : GitOracle) (path branch : String)
    (force : Bool) : Except String Worktree × List (List String) :=
  match validateInput path false with
  | some e => (Except.error e, [])
  | none =>
    match validateInput branch true with
    | some e => (Except.error e, [])
    | none =>
      let args := ["worktree", "add"] ++ (if force then ["--force"] else []) ++
        ["-b", branch, path]
      match executeGitCommand git args with
      | Except.error e => (Except.error e, [args])
      | Except.ok (stderr, _) =>
        if stderr ≠ "" ∧ ¬ containsSubstr stderr "Preparing worktree" = true then
          (Except.error stderr, [args])
        else
          (Except.ok ⟨some path, some branch, "", false, false⟩, [args])

/-- `Manager.addTrackingBranch`: validate `path` and `localBranch`, fetch
the remote branch, then `git worktree add -b localBranch path remoteBranch`.
The `remoteBranch` argument is split on `/` into remote and branch name and
is not validated. -/
def managerAddTrackingBranch (git : GitOracle) (path localBranch remoteBranch : String)
    (force : Bool) : Except String Worktree × List (List String) :=
  match validateInput path false with
  | some e => (Except.error e, [])
  | none =>
    match validateInput localBranch true with
    | some e => (Except.error e, [])
    | none =>
      let parts := splitAux '/' remoteBranch.data []
      let remote := parts.headD ""
      let branchName := joinSlash parts.tail
      let fetchArgs := ["fetch", remote, branchName]
      match executeGitCommand git fetchArgs with
      | Except.error e =>
        (Except.error ("Failed to fetch remote branch: " ++ e), [fetchArgs])
      | Except.ok _ =>
        let args := ["worktree", "add"] ++ (if force then ["--force"] else []) ++
          ["-b", localBranch, path, remoteBranch]
        match executeGitCommand git args with
        | Except.error e => (Except.error e, [fetchArgs, args])
        | Except.ok (stderr, _) =>
          if stderr ≠ "" ∧ ¬ containsSubstr stderr "Preparing worktree" = true then
            (Except.error stderr, [fetchArgs, args])
          else
            (Except.ok ⟨some path, some localBranch, "", false, false⟩, [fetchArgs, args])

/-- `Manager.remove`: validate `path`, then `git worktree remove`. -/
def managerRemove (git : GitOracle) (path : String) (force : Bool) :
    Except String Unit × List (List String) :=
  match validateInput path false with
  | some e => (Except.error e, [])
  | none =>
    let args := ["worktree", "remove"] ++ (if force then ["--force"] else []) ++ [path]
    match executeGitCommand git args with
    | Except.error e => (Except.error e, [args])
    | Except.ok _ => (Except.ok (), [args])

lemma validateInput_path_dangerous (path : String) (h : hasDangerousChar path = true) :
    validateInput path false = some "Invalid path: contains potentially dangerous characters" := by
  simp [validateInput, h]

lemma validateInput_branch_bad (b : String) (h : badBranchInput b = true) :
    ∃ e, validateInput b true = some e := by
  unfold badBranchInput at h
  unfold validateInput
  by_cases hd : hasDangerousChar b = true
  · exact ⟨"Invalid branch: contains potentially dangerous characters", by simp [hd]⟩
  · simp only [hd, Bool.false_or] at h
    by_cases hi : b.data.any invalidBranchChar = true
    · exact ⟨"Invalid branch name: contains forbidden characters", by simp [hd, hi]⟩
    · simp only [hi, Bool.false_or] at h
      exact ⟨"Invalid branch name: cannot start with hyphen", by simp [hd, hi, h]⟩

lemma badBranchInput_ne_empty (b : String) (h : badBranchInput b = true) : b ≠ "" := by
  intro hb
  subst hb
  exact absurd h (by decide)

/-- C10: a path containing a blacklist character (`; & | \x60 $ < > \\`)
makes `add`, `addWithNewBranch`, `addTrackingBranch` and `remove` throw a
`GitError` with no git subprocess launched (empty invocation trace, so the
repository is untouched); a branch argument containing a blacklist
character, whitespace, a git-forbidden character (`~ ^ : ? * [ ]`), or
starting with a hyphen does the same for the three branch-taking
operations. -/
theorem validate_input_rejects (git : GitOracle) (path b rb : String)
    (obranch : Option String) (force : Bool) :
    (hasDangerousChar path = true →
      managerAdd git path obranch force =
        (Except.error "Invalid path: contains potentially dangerous characters", [])
      ∧ managerAddWithNewBranch git path b force =
        (Except.error "Invalid path: contains potentially dangerous characters", [])
      ∧ managerAddTrackingBranch git path b rb force =
        (Except.error "Invalid path: contains potentially dangerous characters", [])
      ∧ managerRemove git path force =
        (Except.error "Invalid path: contains potentially dangerous characters", []))
    ∧ (badBranchInput b = true →
      (∃ e, managerAdd git path (some b) force = (Except.error e, []))
      ∧ (∃ e, managerAddWithNewBranch git path b force = (Except.error e, []))
      ∧ (∃ e, managerAddTrackingBranch git path b rb force = (Except.error e, []))) := by
  constructor
  · intro hp
    have hv := validateInput_path_dangerous path hp
    refine ⟨?_, ?_, ?_, ?_⟩ <;>
      simp [managerAdd, managerAddWithNewBranch, managerAddTrackingBranch, managerRemove, hv]
  · intro hb
    obtain ⟨e, he⟩ := validateInput_branch_bad b hb
    have hbne : b ≠ "" := badBranchInput_ne_empty b hb
    refine ⟨?_, ?_, ?_⟩
    · cases hvp : validateInput path false with
      | some ep => exact ⟨ep, by simp [managerAdd, hvp]⟩
      | none => exact ⟨e, by simp [managerAdd, hvp, hbne, he]⟩
    · cases hvp : validateInput path false with
      | some ep => exact ⟨ep, by simp [managerAddWithNewBranch, hvp]⟩
      | none => exact ⟨e, by simp [managerAddWithNewBranch, hvp, he]⟩
    · cases hvp : validateInput path false with
      | some ep => exact ⟨ep, by simp [managerAddTrackingBranch, hvp]⟩
      | none => exact ⟨e, by simp [managerAddTrackingBranch, hvp, he]⟩

/-- A git oracle for closed witnesses: every call succeeds silently. -/
def gitNullOracle : GitOracle := fun _ => ⟨0, "", ""⟩

/-- Closed witness for `validate_input_rejects`: a path with `;` and a
branch starting with `-`. -/
theorem validate_input_rejects_witness :
    managerAdd gitNullOracle "w;rm -rf" none false =
      (Except.error "Invalid path: contains potentially dangerous characters", [])
    ∧ (∃ e, managerAddWithNewBranch gitNullOracle "w" "-bad" false = (Except.error e, [])) :=
  ⟨((validate_input_rejects gitNullOracle "w;rm -rf" "" "" none false).1 (by decide)).1,
   ((validate_input_rejects gitNullOracle "w" "-bad" "" none false).2 (by decide)).2.1⟩

end Wm2
